import Mathlib

/-!
# Verification of the capacity-ledger engine

Shallow embedding of the capacity-ledger engine of the India generation
dashboard.  The engine exists in two variants in the repository:

* `src/src/RatedCapacity.tsx` (the "tsx" variant): coerces every numeric
  input through `safeNum` and clamps PLF entry to [0,100];
* `src/unnamed/part_000` (the "000" variant): carries the historical
  ledger (CSV parsing, month normalization, month arithmetic, sorting)
  and stores user edits with the raw unary-plus coercion.

JavaScript numbers are modelled as exact rationals extended with the
non-finite values NaN and ±Infinity (`JSNum`).  Binary64 rounding is not
modelled: every claim below is about the exact arithmetic the code
expresses.  Strings are processed on their character lists with
structural-recursive counterparts of the JavaScript string operations
used by the source.
-/

namespace Dashboard

/-! ## Character-level utilities (JS string operations) -/

/-- Whitespace characters recognised by the model of `String.prototype.trim`
(the source only ever meets spaces, tabs and line breaks). -/
def isWS (c : Char) : Bool := c = ' ' || c = '\t' || c = '\n' || c = '\r'

/-- Model of `str.trim()`: drop whitespace from both ends. -/
def trimChars (cs : List Char) : List Char :=
  ((cs.dropWhile isWS).reverse.dropWhile isWS).reverse

def splitOnCharAux (sep : Char) : List Char → List Char → List (List Char)
  | [], cur => [cur.reverse]
  | c :: rest, cur =>
    if c = sep then cur.reverse :: splitOnCharAux sep rest []
    else splitOnCharAux sep rest (c :: cur)

/-- Model of `str.split(sep)` for a one-character separator:
`"".split(s) = [""]`, separators at the ends yield empty fields. -/
def splitOnChar (sep : Char) (cs : List Char) : List (List Char) :=
  splitOnCharAux sep cs []

def splitLinesAux : List Char → List Char → List (List Char)
  | [], cur => [cur.reverse]
  | '\r' :: '\n' :: rest, cur => cur.reverse :: splitLinesAux rest []
  | '\n' :: rest, cur => cur.reverse :: splitLinesAux rest []
  | c :: rest, cur => splitLinesAux rest (c :: cur)

/-- Model of `text.split(/\r?\n/)`: a line break is `"\r\n"` or `"\n"`
(a lone `'\r'` is ordinary content, as for the JS regex). -/
def splitLinesJS (cs : List Char) : List (List Char) := splitLinesAux cs []

/-- The regex class `\d`, i.e. `[0-9]` (code points 48 to 57). -/
def isDigitChar (c : Char) : Bool := 48 ≤ c.toNat && c.toNat ≤ 57

def digitVal (c : Char) : ℕ := c.toNat - 48

def isDigits (cs : List Char) : Bool := cs.all isDigitChar

/-- Numeric value of a digit string (the value `Number` gives a string of
decimal digits). -/
def digitsToNat (cs : List Char) : ℕ := cs.foldl (fun a c => 10 * a + digitVal c) 0

def natToCharsAux : ℕ → ℕ → List Char
  | 0, _ => []
  | fuel + 1, n =>
    if n < 10 then [Nat.digitChar n]
    else natToCharsAux fuel (n / 10) ++ [Nat.digitChar (n % 10)]

/-- Decimal rendering of a natural number, as `String(n)` renders a
non-negative integer. -/
def natToChars (n : ℕ) : List Char := natToCharsAux (n + 1) n

/-- Decimal rendering of an integer, as `String(n)` renders an integer. -/
def intToChars (i : ℤ) : List Char :=
  if i < 0 then '-' :: natToChars i.natAbs else natToChars i.natAbs

/-- Model of `str.padStart(2, "0")`. -/
def padStart2 (cs : List Char) : List Char :=
  if 2 ≤ cs.length then cs else if cs.length = 1 then '0' :: cs else ['0', '0'] ++ cs

/-- `String(n).padStart(2, "0")` for a natural number `n`. -/
def pad2 (n : ℕ) : List Char := padStart2 (natToChars n)

/-! ## JavaScript numbers and `Number()` coercion -/

/-- A JavaScript number, idealized: an exact rational when finite,
plus the non-finite values `NaN`, `Infinity` and `-Infinity`. -/
inductive JSNum where
  | num : ℚ → JSNum
  | nan : JSNum
  | inf : JSNum
  | ninf : JSNum
deriving DecidableEq

def jsIsFinite : JSNum → Bool
  | .num _ => true
  | _ => false

/-- Unsigned part of the string-to-number grammar: decimal digits with an
optional fraction (`"12"`, `"12.5"`, `"12."`, `".5"`).  The exponent,
hexadecimal, octal and binary forms of the full ECMAScript grammar do not
occur in this repository's data and are not modelled; an input using them
conservatively fails to parse here. -/
def parseUnsignedChars (cs : List Char) : Option ℚ :=
  match splitOnChar '.' cs with
  | [a] => if !a.isEmpty && isDigits a then some (digitsToNat a) else none
  | [a, b] =>
    if (!a.isEmpty || !b.isEmpty) && isDigits a && isDigits b then
      some ((digitsToNat a : ℚ) + (digitsToNat b : ℚ) / (10 : ℚ) ^ b.length)
    else none
  | _ => none

/-- Model of `Number(str)` (ECMAScript ToNumber on a string): trim, the
empty string is `0`, an optional sign followed by a decimal literal or
`Infinity`, anything else is `NaN`. -/
def jsToNumberChars (cs : List Char) : JSNum :=
  match trimChars cs with
  | [] => .num 0
  | c :: rest =>
    if c = '-' then
      match parseUnsignedChars rest with
      | some q => .num (-q)
      | none => if rest = "Infinity".data then .ninf else .nan
    else if c = '+' then
      match parseUnsignedChars rest with
      | some q => .num q
      | none => if rest = "Infinity".data then .inf else .nan
    else
      match parseUnsignedChars (c :: rest) with
      | some q => .num q
      | none => if c :: rest = "Infinity".data then .inf else .nan

/-- A JavaScript value reaching a numeric coercion in this code: a string
(CSV cell, input field), a number, `undefined` (missing array element or
object key) or `null`. -/
inductive JSVal where
  | str : String → JSVal
  | numv : JSNum → JSVal
  | undef : JSVal
  | jnull : JSVal

/-- `Number(v)` on the values above (`Number(undefined)` is `NaN`,
`Number(null)` is `0`). -/
def jsToNumberVal : JSVal → JSNum
  | .str s => jsToNumberChars s.data
  | .numv n => n
  | .undef => .nan
  | .jnull => .num 0

/-- `safeNum` of both variants: `Number.isFinite(Number(x)) ? Number(x) : 0`.
(The tsx variant trims strings first; `Number` itself already trims, so the
two coincide.) -/
def safeNum (v : JSVal) : ℚ :=
  match jsToNumberVal v with
  | .num q => q
  | _ => 0

def safeNumChars (cs : List Char) : ℚ := safeNum (.str ⟨cs⟩)

/-- `safeNum` applied to a number that is already held in a record. -/
def safeNumJS (n : JSNum) : ℚ :=
  match n with
  | .num q => q
  | _ => 0

/-! ## JS arithmetic used by the engine -/

/-- JS strict equality `===` on numbers (`NaN === x` is false for every
`x`, including `NaN`). -/
def jsStrictEq : JSNum → JSNum → Bool
  | .num a, .num b => a = b
  | .inf, .inf => true
  | .ninf, .ninf => true
  | _, _ => false

/-- JS subtraction on numbers. -/
def jsSub : JSNum → JSNum → JSNum
  | .num a, .num b => .num (a - b)
  | .nan, _ => .nan
  | _, .nan => .nan
  | .inf, .inf => .nan
  | .inf, _ => .inf
  | .ninf, .ninf => .nan
  | .ninf, _ => .ninf
  | .num _, .inf => .ninf
  | .num _, .ninf => .inf

/-- JS multiplication on numbers (as used by the rated-capacity formula). -/
def jsMul : JSNum → JSNum → JSNum
  | .num a, .num b => .num (a * b)
  | .nan, _ => .nan
  | _, .nan => .nan
  | .inf, .inf => .inf
  | .inf, .ninf => .ninf
  | .ninf, .inf => .ninf
  | .ninf, .ninf => .inf
  | .inf, .num b => if 0 < b then .inf else if b < 0 then .ninf else .nan
  | .num a, .inf => if 0 < a then .inf else if a < 0 then .ninf else .nan
  | .ninf, .num b => if 0 < b then .ninf else if b < 0 then .inf else .nan
  | .num a, .ninf => if 0 < a then .ninf else if a < 0 then .inf else .nan

/-- JS division by the literal `100` (the only division in the engine). -/
def jsDiv100 : JSNum → JSNum
  | .num q => .num (q / 100)
  | .nan => .nan
  | .inf => .inf
  | .ninf => .ninf

/-! ## Energy sources and capacity records -/

/-- The fixed, ordered enumeration of 8 energy sources (`SOURCES`). -/
inductive SourceKey where
  | coal | oilGas | nuclear | hydro | solar | wind | smallHydro | bioPower
deriving DecidableEq

def SourceKey.name : SourceKey → String
  | .coal => "Coal"
  | .oilGas => "Oil & Gas"
  | .nuclear => "Nuclear"
  | .hydro => "Hydro"
  | .solar => "Solar"
  | .wind => "Wind"
  | .smallHydro => "Small-Hydro"
  | .bioPower => "Bio Power"

def SOURCES : List SourceKey :=
  [.coal, .oilGas, .nuclear, .hydro, .solar, .wind, .smallHydro, .bioPower]

/-- A Capacity Record: one finite number per energy source. -/
def CapRecord := SourceKey → ℚ

/-- `round2`: `Math.round(n * 100) / 100`.  `Math.round x` is the half-up
rounding `⌊x + 1/2⌋` (ties toward positive infinity), so `round2` is
half-up rounding of the cents-scaled value. -/
def round2 (q : ℚ) : ℚ := ((⌊q * 100 + 1 / 2⌋ : ℤ) : ℚ) / 100

/-- `round2` lifted to a JS number: `Math.round` of a non-finite value is
itself (`Math.round(NaN) = NaN`, `Math.round(±∞) = ±∞`), and scaling by
100 preserves non-finite values. -/
def jsRound2 : JSNum → JSNum
  | .num q => .num (round2 q)
  | .nan => .nan
  | .inf => .inf
  | .ninf => .ninf

/-! ## CSV parser of the historical ledger (`parseCSV`, part_000 lines 45-68) -/

/-- One pass of `parseLine`'s character loop: RFC4180-ish quoting, a doubled
quote unescapes to a literal quote, a quote toggles the quote state, a comma
outside quotes closes the field; every field is trimmed when pushed. -/
def parseLineAux : List Char → List Char → Bool → List (List Char)
  | [], cur, _ => [trimChars cur.reverse]
  | '"' :: '"' :: rest, cur, q => parseLineAux rest ('"' :: cur) q
  | '"' :: rest, cur, q => parseLineAux rest cur (!q)
  | ',' :: rest, cur, q =>
    if q then parseLineAux rest (',' :: cur) q
    else trimChars cur.reverse :: parseLineAux rest [] q
  | c :: rest, cur, q => parseLineAux rest (c :: cur) q

def parseLine (l : List Char) : List (List Char) := parseLineAux l [] false

/-- `parseCSV`: split into lines, drop the blank ones, parse the first line
as the header and the rest as data rows.  When every line is blank the
source reads `lines[0]` of an empty array and crashes on
`undefined.length`; that non-returning execution is the `none` case. -/
def parseCSV (text : String) : Option (List (List Char) × List (List (List Char))) :=
  match (splitLinesJS text.data).filter (fun l => !l.isEmpty) with
  | [] => none
  | l0 :: rest => some (parseLine l0, rest.map parseLine)

/-! ## Month normalizer (part_000 lines 80-115) -/

def digits12 (a : List Char) : Bool := isDigits a && decide (1 ≤ a.length) && decide (a.length ≤ 2)

def digits4 (b : List Char) : Bool := isDigits b && decide (b.length = 4)

/-- First pattern of `normalizeMonth`: `^(\d{1,2})\/(\d{4})$`.  Since a
digit run contains no `'/'`, the regex matches exactly when splitting on
`'/'` yields two components with the digit-count constraints. -/
def tryP1 (t : List Char) : Option (List Char) :=
  match splitOnChar '/' t with
  | [a, b] => if digits12 a && digits4 b then some (pad2 (digitsToNat a) ++ '/' :: b) else none
  | _ => none

/-- Second pattern: `^(\d{1,2})\/(\d{1,2})\/(\d{4})$` (day discarded). -/
def tryP2 (t : List Char) : Option (List Char) :=
  match splitOnChar '/' t with
  | [a, b, c] =>
    if digits12 a && digits12 b && digits4 c then some (pad2 (digitsToNat b) ++ '/' :: c)
    else none
  | _ => none

/-- Third pattern: `^(\d{1,2})-(\d{1,2})-(\d{4})$` (day discarded). -/
def tryP3 (t : List Char) : Option (List Char) :=
  match splitOnChar '-' t with
  | [a, b, c] =>
    if digits12 a && digits12 b && digits4 c then some (pad2 (digitsToNat b) ++ '/' :: c)
    else none
  | _ => none

/-- `normalizeMonth`: falsy input (absent field or empty string) fails,
otherwise the trimmed input is tried against the three regexes in order;
no match is the "not a month" sentinel `none`. -/
def normalizeMonthChars (input : List Char) : Option (List Char) :=
  if input.isEmpty then none
  else
    match tryP1 (trimChars input) with
    | some r => some r
    | none =>
      match tryP2 (trimChars input) with
      | some r => some r
      | none => tryP3 (trimChars input)

def normalizeMonth (s : String) : Option String :=
  (normalizeMonthChars s.data).map (fun cs => ⟨cs⟩)

/-- The first two components of `m.split("/").map(Number)` (destructuring
`[am, ay]`; a missing component is `undefined`, whose `Number` is `NaN`). -/
def monthParts (s : String) : JSNum × JSNum :=
  let parts := splitOnChar '/' s.data
  ( jsToNumberVal (match parts.get? 0 with | some cs => .str ⟨cs⟩ | none => .undef)
  , jsToNumberVal (match parts.get? 1 with | some cs => .str ⟨cs⟩ | none => .undef) )

/-- `compareMonth`: `ay !== by ? ay - by : am - bm` over JS numbers. -/
def compareMonthJS (a b : String) : JSNum :=
  let pa := monthParts a
  let pb := monthParts b
  if !jsStrictEq pa.2 pb.2 then jsSub pa.2 pb.2 else jsSub pa.1 pb.1

/-- The comparator as consumed by `Array.prototype.sort` (ES SortCompare):
a `NaN` comparator result counts as `+0`; only the sign of the result
matters. -/
def sortCmpVal (a b : String) : ℚ :=
  match compareMonthJS a b with
  | .num q => q
  | .nan => 0
  | .inf => 1
  | .ninf => -1

/-- `String(x)` for the JS numbers met by `minusMonths`: integers and the
non-finite values.  ECMAScript renders a non-integer double by
shortest-round-trip binary64 printing, which has no exact rational
counterpart; the month and year counters are integers (or `NaN`) for every
key the dashboard produces, so the non-integer case is rendered by a
marker that no integer rendering equals. -/
def jsNumToChars : JSNum → List Char
  | .num q => if q.den = 1 then intToChars q.num else '#' :: intToChars q.num
  | .nan => "NaN".data
  | .inf => "Infinity".data
  | .ninf => "-Infinity".data

/-- The `while (n--) { mm--; if (mm === 0) { mm = 12; yy--; } }` loop of
`minusMonths`, for a non-negative integer count `n` (the loop runs exactly
`n` times and always terminates). -/
def minusMonthsLoop : ℕ → JSNum → JSNum → JSNum × JSNum
  | 0, mm, yy => (mm, yy)
  | n + 1, mm, yy =>
    let mm2 := jsSub mm (.num 1)
    if jsStrictEq mm2 (.num 0) then minusMonthsLoop n (.num 12) (jsSub yy (.num 1))
    else minusMonthsLoop n mm2 yy

/-- `minusMonths`: parse the key, run the borrow loop, re-render as
`${String(mm).padStart(2, "0")}/${yy}`. -/
def minusMonths (m : String) (n : ℕ) : String :=
  let p := monthParts m
  let r := minusMonthsLoop n p.1 p.2
  ⟨padStart2 (jsNumToChars r.1) ++ '/' :: jsNumToChars r.2⟩

/-! ## Single-row capacity CSV (`parseCapacityCSV`, RatedCapacity.tsx lines 64-96) -/

/-- Last binding of a key in an association list: a JS object built by
assigning `map[k] = v` in a loop keeps the last assignment to a key. -/
def lookupLast {α β : Type} [DecidableEq α] : List (α × β) → α → Option β
  | [], _ => none
  | (k2, v) :: rest, k =>
    match lookupLast rest k with
    | some v2 => some v2
    | none => if k2 = k then some v else none

/-- `parseCapacityCSV`: trim and drop blank lines, need at least a header
line and one data line, split both on commas, build `map[header[i]] =
values[i] ?? ""`, require all 8 source names to be present, and coerce
each cell through `safeNum`. -/
def parseCapacityCSV (text : String) : Option CapRecord :=
  let lines := ((splitLinesJS text.data).map trimChars).filter (fun l => !l.isEmpty)
  match lines with
  | l0 :: l1 :: _ =>
    let headers := (splitOnChar ',' l0).map trimChars
    let values := (splitOnChar ',' l1).map trimChars
    let pairs := headers.enum.map (fun p => (p.2, values.getD p.1 []))
    if SOURCES.all (fun s => (lookupLast pairs s.name.data).isSome) then
      some (fun s => safeNumChars ((lookupLast pairs s.name.data).getD []))
    else none
  | _ => none

/-! ## Durable storage (`loadLS` / `saveLS`, RatedCapacity.tsx lines 98-121) -/

/-- Durable storage: a map from key to the already-parsed JSON object
stored under it.  `none` covers both an absent key and a raw value that
`JSON.parse` rejects or that is not an object ("storage uncorrupted" means
a written object reads back as written). -/
def Store := String → Option (List (String × JSVal))

def LS_INSTALLED : String := "ratedCapacity_installed"

def LS_PLF : String := "ratedCapacity_plf"

/-- `loadLS`: read and parse the stored object, then keep only the 8
source keys, each coerced through `safeNum`. -/
def loadLS (σ : Store) (key : String) : Option (SourceKey → Option ℚ) :=
  match σ key with
  | none => none
  | some obj =>
    some (fun k =>
      match lookupLast obj k.name with
      | some v => some (safeNum v)
      | none => none)

/-- `saveLS`: `JSON.stringify` of a complete record writes an object
holding the 8 source keys in enumeration order. -/
def saveLS (σ : Store) (key : String) (r : CapRecord) : Store :=
  fun k2 => if k2 = key then some (SOURCES.map (fun s => (s.name, JSVal.numv (.num (r s))))) else σ k2

/-! ## Installed-capacity initialization (RatedCapacity.tsx lines 138-182) -/

/-- Outcome of the mount effect for Installed Capacity: the record, the
`csvLoaded` flag, and whether the capacity-CSV fetch was started at all. -/
structure InstInit where
  installed : SourceKey → ℚ
  csvLoaded : Bool
  fetchAttempted : Bool

/-- The mount effect: a persisted installed record short-circuits (overlay
onto the zero record, no fetch); otherwise the CSV is fetched (`none`
models a network or HTTP failure) and parsed; any failure leaves the
zeros in place and clears `csvLoaded`. -/
def initInstalled (σ : Store) (fetchRes : Option String) : InstInit :=
  match loadLS σ LS_INSTALLED with
  | some p =>
    { installed := fun k => match p k with | some v => safeNum (.numv (.num v)) | none => 0
      csvLoaded := true
      fetchAttempted := false }
  | none =>
    match fetchRes with
    | none => { installed := fun _ => 0, csvLoaded := false, fetchAttempted := true }
    | some text =>
      match parseCapacityCSV text with
      | none => { installed := fun _ => 0, csvLoaded := false, fetchAttempted := true }
      | some r => { installed := r, csvLoaded := true, fetchAttempted := true }

/-! ## Editable records as a state machine (user edits of both variants) -/

/-- The two live records, valued in JS numbers (what the component state
actually holds). -/
structure RecState where
  inst : SourceKey → JSNum
  plf : SourceKey → JSNum

inductive EditOp where
  | editInst : SourceKey → String → EditOp
  | editPlf : SourceKey → String → EditOp

/-- One user edit in the tsx variant: installed entry stores
`safeNum(e.target.value)`; PLF entry stores
`Math.min(100, Math.max(0, safeNum(e.target.value)))`. -/
def tsxStep (st : RecState) : EditOp → RecState
  | .editInst k v =>
    { st with inst := fun k2 => if k2 = k then .num (safeNumChars v.data) else st.inst k2 }
  | .editPlf k v =>
    { st with plf := fun k2 => if k2 = k then .num (min 100 (max 0 (safeNumChars v.data))) else st.plf k2 }

/-- One user edit in the part_000 variant: both handlers store
`+e.target.value` — the raw `ToNumber` coercion, with no `safeNum` and no
clamping. -/
def part000Step (st : RecState) : EditOp → RecState
  | .editInst k v =>
    { st with inst := fun k2 => if k2 = k then jsToNumberChars v.data else st.inst k2 }
  | .editPlf k v =>
    { st with plf := fun k2 => if k2 = k then jsToNumberChars v.data else st.plf k2 }

def zeroState : RecState := ⟨fun _ => .num 0, fun _ => .num 0⟩

/-! ## Rated capacity (part_000 lines 183-189, RatedCapacity.tsx lines 196-202) -/

/-- part_000: `out[s] = round2(installed[s] * (plf[s] / 100))` over JS
numbers. -/
def rated000 (st : RecState) : SourceKey → JSNum :=
  fun s => jsRound2 (jsMul (st.inst s) (jsDiv100 (st.plf s)))

/-- tsx: `out[k] = round2(safeNum(installed[k]) * (safeNum(plf[k]) / 100))`. -/
def ratedTsx (st : RecState) : SourceKey → ℚ :=
  fun k => round2 (safeNumJS (st.inst k) * (safeNumJS (st.plf k) / 100))

/-! ## Historical ledger ingestion (part_000 lines 198-232) -/

structure HistEntry where
  month : String
  values : SourceKey → ℚ

def errMsgHist : String :=
  "capacity.csv not loaded – ensure /public/data/capacity.csv exists with Month + source columns."

/-- `header.findIndex(h => h.trim().toLowerCase() === "month")`. -/
def monthColIdx (header : List (List Char)) : Option ℕ :=
  header.findIdx? (fun h => (trimChars h).map Char.toLower = "month".data)

/-- Per-row values: each source's column is looked up by exact header
name; an absent column yields 0, a present cell goes through `safeNum`
(a short row gives `undefined`, which `safeNum` also sends to 0, matching
`safeNumChars` on the empty field). -/
def rowValues (header : List (List Char)) (r : List (List Char)) : SourceKey → ℚ :=
  fun s =>
    match header.findIdx? (fun h => h = s.name.data) with
    | some i => safeNumChars (r.getD i [])
    | none => 0

/-- The sort relation the ledger's `data.sort((a, b) =>
compareMonth(a.month, b.month))` establishes. -/
def histLE (a b : HistEntry) : Prop := sortCmpVal a.month b.month ≤ 0

instance : DecidableRel histLE :=
  fun a b => decidable_of_iff (sortCmpVal a.month b.month ≤ 0) Iff.rfl

/-- The historical fetch effect: any throw inside the `try` (network
failure, bad HTTP status, the all-blank-CSV crash, a missing `Month`
column) is caught and sets the advisory error, leaving the ledger empty.
On success the entries (rows whose month normalizes) are sorted by the
month comparator.  `Array.prototype.sort` is implementation-defined up to
comparator consistency; it is modelled by insertion sort. -/
def historicalIngest (fetchRes : Option String) : List HistEntry × Option String :=
  match fetchRes with
  | none => ([], some errMsgHist)
  | some txt =>
    match parseCSV txt with
    | none => ([], some errMsgHist)
    | some (header, rows) =>
      match monthColIdx header with
      | none => ([], some errMsgHist)
      | some mIdx =>
        let data := rows.filterMap (fun r =>
          match normalizeMonthChars (r.getD mIdx []) with
          | none => none
          | some mk => some ⟨⟨mk⟩, rowValues header r⟩)
        (List.insertionSort histLE data, none)

/-- The numeric (year, month) key of an `MM/YYYY` string, as the spec's
"(year, month) of the normalized month key". -/
def keyNums (s : String) : ℕ × ℕ :=
  let parts := splitOnChar '/' s.data
  (digitsToNat (parts.getD 1 []), digitsToNat (parts.getD 0 []))

/-- Ascending by (year, month): strictly earlier year, or same year and
month no larger. -/
def monthKeyLE (a b : String) : Prop :=
  (keyNums a).1 < (keyNums b).1 ∨ ((keyNums a).1 = (keyNums b).1 ∧ (keyNums a).2 ≤ (keyNums b).2)

/-! ## Lemmas: trimming -/

theorem dropWhile_isWS_head {xs : List Char} {a : Char} {l : List Char}
    (h : xs.dropWhile isWS = a :: l) : isWS a = false := by
  induction xs with
  | nil => simp at h
  | cons x t ih =>
    rw [List.dropWhile_cons] at h
    by_cases hx : isWS x = true
    · simp [hx] at h; exact ih h
    · simp [hx] at h; simp [← h.1]; simpa using hx

theorem dropWhile_isWS_eq_self {xs : List Char}
    (h : ∀ a l, xs = a :: l → isWS a = false) : xs.dropWhile isWS = xs := by
  cases xs with
  | nil => rfl
  | cons a l => rw [List.dropWhile_cons, h a l rfl]; simp

theorem getLast?_dropWhile_isWS {xs : List Char} (h : xs.dropWhile isWS ≠ []) :
    (xs.dropWhile isWS).getLast? = xs.getLast? := by
  induction xs with
  | nil => simp at h
  | cons x t ih =>
    rw [List.dropWhile_cons] at h ⊢
    by_cases hx : isWS x = true
    · simp only [hx, if_true] at h ⊢
      rw [ih h]
      cases t with
      | nil => simp at h
      | cons b t2 => rw [List.getLast?_cons_cons]
    · simp [hx]

theorem trimChars_head {cs : List Char} {a : Char} {l : List Char}
    (h : trimChars cs = a :: l) : isWS a = false := by
  unfold trimChars at h
  have hne : List.dropWhile isWS (List.dropWhile isWS cs).reverse ≠ [] := by
    intro hnil; rw [hnil] at h; simp at h
  have h2 := getLast?_dropWhile_isWS hne
  rw [List.getLast?_reverse] at h2
  have h3 : (List.dropWhile isWS (List.dropWhile isWS cs).reverse).reverse.head? =
      (List.dropWhile isWS (List.dropWhile isWS cs).reverse).getLast? :=
    List.head?_reverse _
  rw [h, h2] at h3
  cases hd : List.dropWhile isWS cs with
  | nil => rw [hd] at h3; simp at h3
  | cons b t =>
    rw [hd] at h3
    simp only [List.head?_cons, Option.some.injEq] at h3
    rw [h3]
    exact dropWhile_isWS_head hd

theorem trimChars_getLast {cs : List Char} {a : Char}
    (h : (trimChars cs).getLast? = some a) : isWS a = false := by
  unfold trimChars at h
  rw [List.getLast?_reverse] at h
  cases hd : List.dropWhile isWS (List.dropWhile isWS cs).reverse with
  | nil => rw [hd] at h; simp at h
  | cons b t =>
    rw [hd] at h
    simp only [List.head?_cons, Option.some.injEq] at h
    rw [← h]
    exact dropWhile_isWS_head hd

theorem trimChars_eq_self {cs : List Char}
    (hh : ∀ a l, cs = a :: l → isWS a = false)
    (hl : ∀ a, cs.getLast? = some a → isWS a = false) : trimChars cs = cs := by
  unfold trimChars
  rw [dropWhile_isWS_eq_self hh]
  have : cs.reverse.dropWhile isWS = cs.reverse := by
    apply dropWhile_isWS_eq_self
    intro a l hrev
    apply hl
    rw [← List.head?_reverse, hrev]; rfl
  rw [this, List.reverse_reverse]

theorem trimChars_idem (cs : List Char) : trimChars (trimChars cs) = trimChars cs := by
  apply trimChars_eq_self
  · intro a l h; exact trimChars_head h
  · intro a h; exact trimChars_getLast h

/-! ## Lemmas: digits -/

theorem not_isWS_of_isDigitChar {c : Char} (h : isDigitChar c = true) : isWS c = false := by
  rw [isWS]
  simp only [Bool.or_eq_false_iff, decide_eq_false_iff_not]
  refine ⟨⟨⟨?_, ?_⟩, ?_⟩, ?_⟩ <;> (intro he; subst he; exact absurd h (by decide))

theorem not_mem_of_isDigits {cs : List Char} {c : Char}
    (h : isDigits cs = true) (hc : isDigitChar c = false) : c ∉ cs := by
  intro hm
  rw [isDigits, List.all_eq_true] at h
  have := h c hm
  rw [hc] at this
  exact absurd this (by decide)

theorem trimChars_of_isDigits {cs : List Char} (h : isDigits cs = true) : trimChars cs = cs := by
  rw [isDigits, List.all_eq_true] at h
  apply trimChars_eq_self
  · intro a l he
    exact not_isWS_of_isDigitChar (h a (he ▸ List.mem_cons_self a l))
  · intro a he
    exact not_isWS_of_isDigitChar (h a (List.mem_of_getLast?_eq_some he))

theorem digitsToNat_append (xs : List Char) (c : Char) :
    digitsToNat (xs ++ [c]) = 10 * digitsToNat xs + digitVal c := by
  unfold digitsToNat
  rw [List.foldl_append]
  rfl

theorem digitVal_digitChar {n : ℕ} (h : n < 10) : digitVal (Nat.digitChar n) = n := by
  interval_cases n <;> decide

theorem isDigitChar_digitChar {n : ℕ} (h : n < 10) : isDigitChar (Nat.digitChar n) = true := by
  interval_cases n <;> decide

theorem natToCharsAux_spec : ∀ (fuel n : ℕ), n < fuel →
    isDigits (natToCharsAux fuel n) = true ∧ natToCharsAux fuel n ≠ [] ∧
      digitsToNat (natToCharsAux fuel n) = n := by
  intro fuel
  induction fuel with
  | zero => intro n h; omega
  | succ f ih =>
    intro n h
    rw [natToCharsAux]
    by_cases h10 : n < 10
    · simp only [h10, if_true]
      refine ⟨by simp [isDigits, isDigitChar_digitChar h10], by simp, ?_⟩
      show digitsToNat ([] ++ [Nat.digitChar n]) = n
      rw [digitsToNat_append, digitVal_digitChar h10]
      have hz : digitsToNat [] = 0 := rfl
      omega
    · simp only [h10, if_false]
      have hdiv : n / 10 < f := by
        have : n / 10 < n := Nat.div_lt_self (by omega) (by omega)
        omega
      obtain ⟨hd, hne, hv⟩ := ih (n / 10) hdiv
      refine ⟨?_, by simp, ?_⟩
      · rw [isDigits] at hd ⊢
        simp only [List.all_append, hd, Bool.true_and, List.all_cons, List.all_nil,
          Bool.and_true]
        exact isDigitChar_digitChar (Nat.mod_lt n (by omega))
      · rw [digitsToNat_append, hv, digitVal_digitChar (Nat.mod_lt n (by omega))]
        omega

theorem natToChars_spec (n : ℕ) :
    isDigits (natToChars n) = true ∧ natToChars n ≠ [] ∧ digitsToNat (natToChars n) = n :=
  natToCharsAux_spec (n + 1) n (Nat.lt_succ_self n)

theorem digitsToNat_cons_zero (cs : List Char) : digitsToNat ('0' :: cs) = digitsToNat cs := by
  unfold digitsToNat
  rfl

theorem pad2_spec (n : ℕ) :
    isDigits (pad2 n) = true ∧ pad2 n ≠ [] ∧ digitsToNat (pad2 n) = n := by
  obtain ⟨hd, hne, hv⟩ := natToChars_spec n
  unfold pad2 padStart2
  split
  · exact ⟨hd, hne, hv⟩
  · split
    · refine ⟨?_, by simp, ?_⟩
      · rw [isDigits] at hd ⊢
        simp only [List.all_cons, Bool.and_eq_true]
        exact ⟨by decide, hd⟩
      · rw [digitsToNat_cons_zero]; exact hv
    · refine ⟨?_, by simp, ?_⟩
      · rw [isDigits] at hd ⊢
        simp only [List.cons_append, List.nil_append, List.all_cons, Bool.and_eq_true]
        exact ⟨by decide, by decide, hd⟩
      · show digitsToNat ('0' :: '0' :: natToChars n) = n
        rw [digitsToNat_cons_zero, digitsToNat_cons_zero]; exact hv

theorem digitsToNat_lt {cs : List Char} (h : isDigits cs = true) :
    digitsToNat cs < 10 ^ cs.length := by
  induction cs using List.reverseRecOn with
  | nil => simp [digitsToNat]
  | append_singleton xs c ih =>
    rw [isDigits, List.all_append] at h
    simp only [Bool.and_eq_true, List.all_cons, List.all_nil, Bool.and_true] at h
    obtain ⟨hxs, hc⟩ := h
    rw [digitsToNat_append, List.length_append]
    have h1 : digitsToNat xs < 10 ^ xs.length := ih hxs
    have h2 : digitVal c < 10 := by
      rw [isDigitChar, Bool.and_eq_true, decide_eq_true_eq, decide_eq_true_eq] at hc
      rw [digitVal]
      omega
    simp only [List.length_cons, List.length_nil, Nat.zero_add]
    have hpow : (10 : ℕ) ^ (xs.length + 1) = 10 * 10 ^ xs.length := by ring
    omega

theorem natToCharsAux_length_le : ∀ (fuel n : ℕ), n < fuel → n < 100 →
    (natToCharsAux fuel n).length ≤ 2 := by
  intro fuel
  induction fuel with
  | zero => intro n h; omega
  | succ f ih =>
    intro n h h100
    rw [natToCharsAux]
    by_cases h10 : n < 10
    · simp [h10]
    · simp only [h10, if_false, List.length_append, List.length_cons, List.length_nil]
      have hdiv : n / 10 < f := by
        have : n / 10 < n := Nat.div_lt_self (by omega) (by omega)
        omega
      have hd10 : n / 10 < 10 := by omega
      cases f with
      | zero => omega
      | succ f2 =>
        rw [natToCharsAux]
        simp [hd10]

theorem pad2_length {n : ℕ} (h : n < 100) : (pad2 n).length = 2 := by
  have hle := natToCharsAux_length_le (n + 1) n (Nat.lt_succ_self n) h
  have hne := (natToChars_spec n).2.1
  unfold pad2 padStart2
  unfold natToChars at hle hne ⊢
  split
  · omega
  · split
    · simp; omega
    · have : (natToCharsAux (n + 1) n).length ≠ 0 := by
        intro h0
        exact hne (List.eq_nil_of_length_eq_zero h0)
      omega

/-! ## Lemmas: splitting -/

theorem splitOnCharAux_of_not_mem (sep : Char) :
    ∀ (cs acc : List Char), sep ∉ cs → splitOnCharAux sep cs acc = [acc.reverse ++ cs] := by
  intro cs
  induction cs with
  | nil => intro acc _; simp [splitOnCharAux]
  | cons c rest ih =>
    intro acc h
    rw [splitOnCharAux]
    have hc : ¬(c = sep) := fun he => h (he ▸ List.mem_cons_self c rest)
    simp only [hc, if_false]
    rw [ih (c :: acc) (fun hm => h (List.mem_cons_of_mem c hm))]
    simp

theorem splitOnChar_of_not_mem {sep : Char} {cs : List Char} (h : sep ∉ cs) :
    splitOnChar sep cs = [cs] := by
  rw [splitOnChar, splitOnCharAux_of_not_mem sep cs [] h]
  rfl

theorem splitOnCharAux_append (sep : Char) :
    ∀ (xs acc ys : List Char), sep ∉ xs →
      splitOnCharAux sep (xs ++ sep :: ys) acc = (acc.reverse ++ xs) :: splitOnChar sep ys := by
  intro xs
  induction xs with
  | nil =>
    intro acc ys _
    rw [List.nil_append, splitOnCharAux]
    simp [splitOnChar]
  | cons x t ih =>
    intro acc ys h
    rw [List.cons_append, splitOnCharAux]
    have hx : ¬(x = sep) := fun he => h (he ▸ List.mem_cons_self x t)
    simp only [hx, if_false]
    rw [ih (x :: acc) ys (fun hm => h (List.mem_cons_of_mem x hm))]
    simp

theorem splitOnChar_append {sep : Char} {xs ys : List Char} (h : sep ∉ xs) :
    splitOnChar sep (xs ++ sep :: ys) = xs :: splitOnChar sep ys := by
  rw [splitOnChar, splitOnCharAux_append sep xs [] ys h]
  rfl

/-- Inverse of splitting: rejoin the components with the separator. -/
def joinSep (sep : Char) : List (List Char) → List Char
  | [] => []
  | [x] => x
  | x :: y :: r => x ++ sep :: joinSep sep (y :: r)

theorem splitOnCharAux_ne_nil (sep : Char) :
    ∀ (cs acc : List Char), splitOnCharAux sep cs acc ≠ [] := by
  intro cs
  induction cs with
  | nil => intro acc; simp [splitOnCharAux]
  | cons c rest ih =>
    intro acc
    rw [splitOnCharAux]
    by_cases hc : c = sep
    · simp [hc]
    · simp only [hc, if_false]; exact ih (c :: acc)

theorem joinSep_cons (sep : Char) (x : List Char) {l : List (List Char)} (h : l ≠ []) :
    joinSep sep (x :: l) = x ++ sep :: joinSep sep l := by
  cases l with
  | nil => exact absurd rfl h
  | cons y r => rfl

theorem joinSep_splitOnCharAux (sep : Char) :
    ∀ (cs acc : List Char), joinSep sep (splitOnCharAux sep cs acc) = acc.reverse ++ cs := by
  intro cs
  induction cs with
  | nil => intro acc; simp [splitOnCharAux, joinSep]
  | cons c rest ih =>
    intro acc
    rw [splitOnCharAux]
    by_cases hc : c = sep
    · simp only [hc, if_true]
      rw [joinSep_cons sep _ (splitOnCharAux_ne_nil sep rest [])]
      rw [ih []]
      simp
    · simp only [hc, if_false]
      rw [ih (c :: acc)]
      simp

theorem joinSep_splitOnChar (sep : Char) (cs : List Char) :
    joinSep sep (splitOnChar sep cs) = cs := by
  rw [splitOnChar, joinSep_splitOnCharAux]
  rfl

theorem splitOnChar_two {sep : Char} {cs a b : List Char}
    (h : splitOnChar sep cs = [a, b]) : cs = a ++ sep :: b := by
  have := joinSep_splitOnChar sep cs
  rw [h] at this
  rw [← this]
  rfl

theorem splitOnChar_three {sep : Char} {cs a b c : List Char}
    (h : splitOnChar sep cs = [a, b, c]) : cs = a ++ sep :: b ++ sep :: c := by
  have hj := joinSep_splitOnChar sep cs
  rw [h] at hj
  rw [← hj]
  show a ++ sep :: (b ++ sep :: c) = (a ++ sep :: b) ++ sep :: c
  simp

/-! ## Lemmas: `Number()` on digit strings -/

theorem isEmpty_false_of_ne_nil {cs : List Char} (h : cs ≠ []) : cs.isEmpty = false := by
  cases cs with
  | nil => exact absurd rfl h
  | cons a l => rfl

theorem parseUnsignedChars_digits {cs : List Char} (hd : isDigits cs = true) (hne : cs ≠ []) :
    parseUnsignedChars cs = some (digitsToNat cs) := by
  have hdot : '.' ∉ cs := not_mem_of_isDigits hd (by decide)
  unfold parseUnsignedChars
  rw [splitOnChar_of_not_mem hdot]
  simp [isEmpty_false_of_ne_nil hne, hd]

theorem jsToNumberChars_digits {cs : List Char} (hd : isDigits cs = true) (hne : cs ≠ []) :
    jsToNumberChars cs = .num (digitsToNat cs) := by
  have hall := hd
  rw [isDigits, List.all_eq_true] at hall
  obtain ⟨c, rest, rfl⟩ : ∃ c rest, cs = c :: rest := by
    cases cs with
    | nil => exact absurd rfl hne
    | cons c rest => exact ⟨c, rest, rfl⟩
  have hc : isDigitChar c = true := hall c (List.mem_cons_self _ _)
  have hcm : ¬(c = '-') := by intro h; rw [h] at hc; exact absurd hc (by decide)
  have hcp : ¬(c = '+') := by intro h; rw [h] at hc; exact absurd hc (by decide)
  unfold jsToNumberChars
  rw [trimChars_of_isDigits hd]
  simp [if_neg hcm, if_neg hcp, parseUnsignedChars_digits hd hne]

/-! ## Lemmas: month keys produced by the normalizer -/

def digits12_isDigits {a : List Char} (h : digits12 a = true) : isDigits a = true := by
  rw [digits12, Bool.and_eq_true, Bool.and_eq_true] at h
  exact h.1.1

def digits4_isDigits {b : List Char} (h : digits4 b = true) : isDigits b = true := by
  rw [digits4, Bool.and_eq_true] at h
  exact h.1

def digits4_ne_nil {b : List Char} (h : digits4 b = true) : b ≠ [] := by
  rw [digits4, Bool.and_eq_true, decide_eq_true_eq] at h
  intro hnil
  rw [hnil] at h
  simp at h

/-- A good month key: two digit characters coding a month value at most
99, a slash, then a non-empty digit year. Every key the normalizer emits
has this shape, and on such keys the JS month comparator computes the
lexicographic (year, month) order. -/
def goodKey (s : String) : Prop :=
  ∃ mm y, mm ≤ 99 ∧ isDigits y = true ∧ y ≠ [] ∧ s.data = pad2 mm ++ '/' :: y

theorem splitOnChar_goodKey {s : String} {mm : ℕ} {y : List Char}
    (hy : isDigits y = true) (hdata : s.data = pad2 mm ++ '/' :: y) :
    splitOnChar '/' s.data = [pad2 mm, y] := by
  rw [hdata]
  have h1 : '/' ∉ pad2 mm := not_mem_of_isDigits (pad2_spec mm).1 (by decide)
  have h2 : '/' ∉ y := not_mem_of_isDigits hy (by decide)
  rw [splitOnChar_append h1, splitOnChar_of_not_mem h2]

theorem monthParts_goodKey {s : String} (h : goodKey s) :
    ∃ mm yv : ℕ, monthParts s = (.num (mm : ℚ), .num (yv : ℚ)) ∧ keyNums s = (yv, mm) := by
  obtain ⟨mm, y, hmm, hy, hyne, hdata⟩ := h
  have hsplit := splitOnChar_goodKey hy hdata
  refine ⟨mm, digitsToNat y, ?_, ?_⟩
  · rw [monthParts, hsplit]
    simp only [List.get?]
    show (jsToNumberChars (String.data ⟨pad2 mm⟩), jsToNumberChars (String.data ⟨y⟩)) = _
    show (jsToNumberChars (pad2 mm), jsToNumberChars y) = _
    rw [jsToNumberChars_digits (pad2_spec mm).1 (pad2_spec mm).2.1,
      jsToNumberChars_digits hy hyne, (pad2_spec mm).2.2]
  · rw [keyNums, hsplit]
    simp [(pad2_spec mm).2.2]

theorem monthKeyLE_total (a b : String) : monthKeyLE a b ∨ monthKeyLE b a := by
  unfold monthKeyLE
  omega

theorem monthKeyLE_trans {a b c : String} (h1 : monthKeyLE a b) (h2 : monthKeyLE b c) :
    monthKeyLE a c := by
  unfold monthKeyLE at *
  omega

theorem sortCmpVal_le_iff {a b : String} (ha : goodKey a) (hb : goodKey b) :
    sortCmpVal a b ≤ 0 ↔ monthKeyLE a b := by
  obtain ⟨ma, ya, hpa, hka⟩ := monthParts_goodKey ha
  obtain ⟨mb, yb, hpb, hkb⟩ := monthParts_goodKey hb
  have hcmp : compareMonthJS a b =
      .num (if ya = yb then (ma : ℚ) - (mb : ℚ) else (ya : ℚ) - (yb : ℚ)) := by
    simp only [compareMonthJS, hpa, hpb]
    by_cases hy : ya = yb
    · have hq : ((ya : ℕ) : ℚ) = ((yb : ℕ) : ℚ) := Nat.cast_inj.mpr hy
      simp [jsStrictEq, jsSub, hy, hq]
    · have hq : ¬(((ya : ℕ) : ℚ) = ((yb : ℕ) : ℚ)) := fun h => hy (Nat.cast_inj.mp h)
      simp [jsStrictEq, jsSub, hy, hq]
  have hval : sortCmpVal a b =
      if ya = yb then (ma : ℚ) - (mb : ℚ) else (ya : ℚ) - (yb : ℚ) := by
    rw [sortCmpVal, hcmp]
  rw [hval, monthKeyLE, hka, hkb]
  dsimp only
  by_cases hy : ya = yb
  · rw [if_pos hy]
    constructor
    · intro hle
      have h1 : (ma : ℚ) ≤ (mb : ℚ) := by linarith [sub_nonpos.mp hle]
      have h2 : ma ≤ mb := by exact_mod_cast h1
      omega
    · intro hor
      have h2 : ma ≤ mb := by omega
      have h1 : (ma : ℚ) ≤ (mb : ℚ) := by exact_mod_cast h2
      linarith
  · rw [if_neg hy]
    constructor
    · intro hle
      have h1 : (ya : ℚ) ≤ (yb : ℚ) := by linarith [sub_nonpos.mp hle]
      have h2 : ya ≤ yb := by exact_mod_cast h1
      omega
    · intro hor
      have h2 : ya ≤ yb := by omega
      have h1 : (ya : ℚ) ≤ (yb : ℚ) := by exact_mod_cast h2
      linarith

theorem histLE_iff {a b : HistEntry} (ha : goodKey a.month) (hb : goodKey b.month) :
    histLE a b ↔ monthKeyLE a.month b.month :=
  sortCmpVal_le_iff ha hb

/-! ## Lemmas: sortedness of the ledger sort -/

theorem pairwise_orderedInsert {a : HistEntry} {l : List HistEntry}
    (hga : goodKey a.month) (hgl : ∀ e ∈ l, goodKey e.month)
    (hp : l.Pairwise (fun e1 e2 => monthKeyLE e1.month e2.month)) :
    (l.orderedInsert histLE a).Pairwise (fun e1 e2 => monthKeyLE e1.month e2.month) := by
  induction l with
  | nil => simp [List.orderedInsert]
  | cons b t ih =>
    rw [List.orderedInsert]
    rw [List.pairwise_cons] at hp
    by_cases hab : histLE a b
    · rw [if_pos hab]
      have hgb : goodKey b.month := hgl b (List.mem_cons_self b t)
      have hmab : monthKeyLE a.month b.month := (histLE_iff hga hgb).mp hab
      rw [List.pairwise_cons]
      refine ⟨?_, List.pairwise_cons.mpr hp⟩
      intro x hx
      rcases List.mem_cons.mp hx with rfl | hxt
      · exact hmab
      · exact monthKeyLE_trans hmab (hp.1 x hxt)
    · rw [if_neg hab]
      have hgb : goodKey b.month := hgl b (List.mem_cons_self b t)
      rw [List.pairwise_cons]
      constructor
      · intro x hx
        rcases (List.mem_orderedInsert histLE).mp hx with heq | hxt
        · rw [heq]
          have hnab : ¬ monthKeyLE a.month b.month :=
            fun hm => hab ((histLE_iff hga hgb).mpr hm)
          rcases monthKeyLE_total a.month b.month with hm | hm
          · exact absurd hm hnab
          · exact hm
        · exact hp.1 x hxt
      · exact ih (fun e he => hgl e (List.mem_cons_of_mem b he)) hp.2

theorem pairwise_insertionSort {l : List HistEntry}
    (hg : ∀ e ∈ l, goodKey e.month) :
    (List.insertionSort histLE l).Pairwise (fun e1 e2 => monthKeyLE e1.month e2.month) := by
  induction l with
  | nil => simp [List.insertionSort]
  | cons a t ih =>
    rw [List.insertionSort]
    apply pairwise_orderedInsert (hg a (List.mem_cons_self a t))
    · intro e he
      exact hg e (List.mem_cons_of_mem a ((List.mem_insertionSort histLE).mp he))
    · exact ih (fun e he => hg e (List.mem_cons_of_mem a he))

/-! ## Lemmas: the three month patterns -/

theorem digits12_le99 {a : List Char} (h : digits12 a = true) : digitsToNat a ≤ 99 := by
  have hd := digits12_isDigits h
  rw [digits12, Bool.and_eq_true, Bool.and_eq_true, decide_eq_true_eq, decide_eq_true_eq] at h
  have hlt := digitsToNat_lt hd
  have hpow : (10 : ℕ) ^ a.length ≤ 10 ^ 2 := Nat.pow_le_pow_right (by omega) h.2
  omega

theorem tryP1_some {t r : List Char} (h : tryP1 t = some r) :
    ∃ a b, digits12 a = true ∧ digits4 b = true ∧ t = a ++ '/' :: b ∧
      r = pad2 (digitsToNat a) ++ '/' :: b := by
  unfold tryP1 at h
  split at h
  · rename_i a b heq
    split at h
    · rename_i hcond
      rw [Bool.and_eq_true] at hcond
      refine ⟨a, b, hcond.1, hcond.2, splitOnChar_two heq, ?_⟩
      exact (Option.some.injEq _ _).mp h.symm
    · exact absurd h (by simp)
  · exact absurd h (by simp)

theorem tryP2_some {t r : List Char} (h : tryP2 t = some r) :
    ∃ a b c, digits12 a = true ∧ digits12 b = true ∧ digits4 c = true ∧
      t = a ++ '/' :: (b ++ '/' :: c) ∧ r = pad2 (digitsToNat b) ++ '/' :: c := by
  unfold tryP2 at h
  split at h
  · rename_i a b c heq
    split at h
    · rename_i hcond
      rw [Bool.and_eq_true, Bool.and_eq_true] at hcond
      have ht := splitOnChar_three heq
      refine ⟨a, b, c, hcond.1.1, hcond.1.2, hcond.2, ?_, ?_⟩
      · rw [ht]; simp
      · exact (Option.some.injEq _ _).mp h.symm
    · exact absurd h (by simp)
  · exact absurd h (by simp)

theorem tryP3_some {t r : List Char} (h : tryP3 t = some r) :
    ∃ a b c, digits12 a = true ∧ digits12 b = true ∧ digits4 c = true ∧
      t = a ++ '-' :: (b ++ '-' :: c) ∧ r = pad2 (digitsToNat b) ++ '/' :: c := by
  unfold tryP3 at h
  split at h
  · rename_i a b c heq
    split at h
    · rename_i hcond
      rw [Bool.and_eq_true, Bool.and_eq_true] at hcond
      have ht := splitOnChar_three heq
      refine ⟨a, b, c, hcond.1.1, hcond.1.2, hcond.2, ?_, ?_⟩
      · rw [ht]; simp
      · exact (Option.some.injEq _ _).mp h.symm
    · exact absurd h (by simp)
  · exact absurd h (by simp)

/-- The canonical result shape every `tryP` branch produces. -/
theorem normalizeMonthChars_shape {input mk : List Char}
    (h : normalizeMonthChars input = some mk) :
    ∃ mm y, mm ≤ 99 ∧ digits4 y = true ∧ mk = pad2 mm ++ '/' :: y := by
  unfold normalizeMonthChars at h
  split at h
  · exact absurd h (by simp)
  · cases h1 : tryP1 (trimChars input) with
    | some r =>
      rw [h1] at h
      simp only [Option.some.injEq] at h
      obtain ⟨a, b, ha, hb, _, hr⟩ := tryP1_some h1
      exact ⟨digitsToNat a, b, digits12_le99 ha, hb, by rw [← h, hr]⟩
    | none =>
      rw [h1] at h
      cases h2 : tryP2 (trimChars input) with
      | some r =>
        rw [h2] at h
        simp only [Option.some.injEq] at h
        obtain ⟨a, b, c, _, hb, hc, _, hr⟩ := tryP2_some h2
        exact ⟨digitsToNat b, c, digits12_le99 hb, hc, by rw [← h, hr]⟩
      | none =>
        rw [h2] at h
        simp only [] at h
        obtain ⟨a, b, c, _, hb, hc, _, hr⟩ := tryP3_some h
        exact ⟨digitsToNat b, c, digits12_le99 hb, hc, hr⟩

theorem goodKey_of_normalize {input mk : List Char}
    (h : normalizeMonthChars input = some mk) : goodKey ⟨mk⟩ := by
  obtain ⟨mm, y, hmm, hy, hmk⟩ := normalizeMonthChars_shape h
  exact ⟨mm, y, hmm, digits4_isDigits hy, digits4_ne_nil hy, by rw [hmk]⟩

/-! ## Claim theorems -/

/-- C1: for every energy source `s`, the derived Rated Capacity record
satisfies `rated[s] = round2(installed[s] * plf[s] / 100)` — in both
variants — where `round2` is half-up rounding of the cents-scaled value;
Rated Capacity is the pure function `rated000` / `ratedTsx` of the two
live records and is recomputed from them, never stored. -/
theorem c1_rated_formula : ∀ (st : RecState) (s : SourceKey) (a b : ℚ),
    st.inst s = .num a → st.plf s = .num b →
    rated000 st s = .num (round2 (a * b / 100)) ∧ ratedTsx st s = round2 (a * b / 100) := by
  intro st s a b hi hp
  constructor
  · simp only [rated000, hi, hp, jsDiv100, jsMul, jsRound2]
    rw [mul_div_assoc]
  · simp only [ratedTsx, hi, hp, safeNumJS]
    rw [mul_div_assoc]

theorem c1_witness :
    rated000 ⟨fun _ => JSNum.num 50, fun _ => JSNum.num 60⟩ SourceKey.coal =
      JSNum.num (round2 (50 * 60 / 100)) ∧
    ratedTsx ⟨fun _ => JSNum.num 50, fun _ => JSNum.num 60⟩ SourceKey.coal =
      round2 (50 * 60 / 100) :=
  c1_rated_formula _ SourceKey.coal 50 60 rfl rfl

/-- C9: the two variants differ on PLF entry exactly as stated: the tsx
editor stores `min(100, max(0, coerced))`, always in [0, 100]; the
part_000 editor stores the raw coercion of the entered value with no
clamping (for instance entering "500" stores 500). -/
theorem c9_plf_clamping : ∀ (st : RecState) (k : SourceKey) (v : String),
    (tsxStep st (.editPlf k v)).plf k = .num (min 100 (max 0 (safeNumChars v.data))) ∧
    0 ≤ min 100 (max 0 (safeNumChars v.data)) ∧
    min 100 (max 0 (safeNumChars v.data)) ≤ 100 ∧
    (part000Step st (.editPlf k v)).plf k = jsToNumberChars v.data ∧
    (part000Step st (.editPlf k "500")).plf k = .num 500 := by
  intro st k v
  refine ⟨?_, ?_, ?_, ?_, ?_⟩
  · simp [tsxStep]
  · exact le_min (by norm_num) (le_max_left 0 _)
  · exact min_le_left _ _
  · simp [part000Step]
  · have h5 : (part000Step st (.editPlf k "500")).plf k = jsToNumberChars "500".data := by
      simp [part000Step]
    rw [h5]
    decide

/-- C3 counterexample: in the part_000 variant, typing "abc" into the
Coal installed-capacity field stores `NaN` — not 0 — so not every value
ever held in the records is a finite number. -/
theorem c3_nan_stored_counterexample :
    (part000Step zeroState (.editInst SourceKey.coal "abc")).inst SourceKey.coal = JSNum.nan ∧
    JSNum.nan ≠ JSNum.num 0 := by
  constructor
  · have ha : (part000Step zeroState (.editInst SourceKey.coal "abc")).inst SourceKey.coal =
        jsToNumberChars "abc".data := by
      simp [part000Step]
    rw [ha]
    decide
  · decide

/-- C3 as amended: in the tsx variant every user edit stores a finite
number (so the records stay finite from any finite start), and `safeNum`
sends every input that does not coerce to a finite number to exactly 0;
the part_000 variant's editors, however, store the raw `ToNumber`
coercion of the entered text, with no `safeNum`. -/
theorem c3_coercion_amended : ∀ (st0 : RecState) (ops : List EditOp),
    (∀ k, jsIsFinite (st0.inst k) = true ∧ jsIsFinite (st0.plf k) = true) →
    (∀ k, jsIsFinite ((ops.foldl tsxStep st0).inst k) = true ∧
       jsIsFinite ((ops.foldl tsxStep st0).plf k) = true) ∧
    (∀ v : List Char, jsIsFinite (jsToNumberChars v) = false → safeNumChars v = 0) ∧
    (∀ (st : RecState) (k : SourceKey) (v : String),
       (part000Step st (.editInst k v)).inst k = jsToNumberChars v.data ∧
       (part000Step st (.editPlf k v)).plf k = jsToNumberChars v.data) := by
  intro st0 ops h0
  refine ⟨?_, ?_, ?_⟩
  · induction ops generalizing st0 with
    | nil => exact h0
    | cons op rest ih =>
      rw [List.foldl_cons]
      apply ih
      intro k
      cases op with
      | editInst k2 v =>
        refine ⟨?_, (h0 k).2⟩
        simp only [tsxStep]
        split
        · rfl
        · exact (h0 k).1
      | editPlf k2 v =>
        refine ⟨(h0 k).1, ?_⟩
        simp only [tsxStep]
        split
        · rfl
        · exact (h0 k).2
  · intro v hv
    have hrw : safeNumChars v = safeNumJS (jsToNumberChars v) := rfl
    rw [hrw]
    cases hj : jsToNumberChars v with
    | num q => rw [hj] at hv; simp [jsIsFinite] at hv
    | nan => rfl
    | inf => rfl
    | ninf => rfl
  · intro st k v
    exact ⟨by simp [part000Step], by simp [part000Step]⟩

theorem c3_amended_witness :
    (∀ k, jsIsFinite (zeroState.inst k) = true ∧ jsIsFinite (zeroState.plf k) = true) ∧
    (∀ k : SourceKey,
       jsIsFinite (([EditOp.editInst SourceKey.coal "abc"].foldl tsxStep zeroState).inst k) = true ∧
       jsIsFinite (([EditOp.editInst SourceKey.coal "abc"].foldl tsxStep zeroState).plf k) = true) :=
  ⟨fun _ => ⟨rfl, rfl⟩,
   (c3_coercion_amended zeroState [EditOp.editInst SourceKey.coal "abc"]
      (fun _ => ⟨rfl, rfl⟩)).1⟩

/-- C6: saving a complete Capacity Record (one finite number per source)
under a storage key and loading that key back returns the record
key-for-key (the `Store` model reads back exactly the object written,
which is the "storage uncorrupted" hypothesis). -/
theorem c6_storage_roundtrip : ∀ (σ : Store) (key : String) (r : CapRecord),
    ∃ p, loadLS (saveLS σ key r) key = some p ∧ ∀ k, p k = some (r k) := by
  intro σ key r
  refine ⟨fun k =>
      match lookupLast (SOURCES.map (fun s => (s.name, JSVal.numv (.num (r s))))) k.name with
      | some v => some (safeNum v)
      | none => none, ?_, ?_⟩
  · show loadLS (saveLS σ key r) key = _
    unfold loadLS saveLS
    rw [if_pos rfl]
  · intro k
    have hl : lookupLast (SOURCES.map (fun s => (s.name, JSVal.numv (JSNum.num (r s))))) k.name
        = some (JSVal.numv (.num (r k))) := by
      cases k <;> rfl
    dsimp only
    rw [hl]
    rfl

/-- C2: Installed Capacity initialization follows persisted > CSV > zero:
a persisted installed record short-circuits (the fetch is never
attempted and the record is installed from storage, overlaid per key),
the CSV is consulted only with no persisted record, and a fetch or parse
failure leaves all zeros and clears the `csvLoaded` signal. -/
theorem c2_init_priority : ∀ (σ : Store) (f : Option String),
    ((loadLS σ LS_INSTALLED).isSome = true →
       (initInstalled σ f).fetchAttempted = false ∧
       ∀ p, loadLS σ LS_INSTALLED = some p →
         ∀ k, (initInstalled σ f).installed k = (p k).getD 0) ∧
    (loadLS σ LS_INSTALLED = none →
       (initInstalled σ f).fetchAttempted = true ∧
       ((f = none ∨ ∃ t, f = some t ∧ parseCapacityCSV t = none) →
         (∀ k, (initInstalled σ f).installed k = 0) ∧
         (initInstalled σ f).csvLoaded = false)) := by
  intro σ f
  constructor
  · intro hs
    cases hl : loadLS σ LS_INSTALLED with
    | none => rw [hl] at hs; simp at hs
    | some p0 =>
      constructor
      · unfold initInstalled
        rw [hl]
      · intro p hp k
        injection hp with hpp
        subst hpp
        unfold initInstalled
        rw [hl]
        dsimp only
        cases p0 k <;> rfl
  · intro hl
    constructor
    · cases f with
      | none =>
        unfold initInstalled
        rw [hl]
      | some t =>
        unfold initInstalled
        rw [hl]
        dsimp only
        cases hp : parseCapacityCSV t <;> rfl
    · intro hfail
      rcases hfail with hn | ⟨t2, ht2, hparse⟩
      · subst hn
        unfold initInstalled
        rw [hl]
        exact ⟨fun _ => rfl, rfl⟩
      · subst ht2
        unfold initInstalled
        rw [hl]
        dsimp only
        rw [hparse]
        exact ⟨fun _ => rfl, rfl⟩

def storeWithInstalled : Store := saveLS (fun _ => none) LS_INSTALLED (fun _ => 1)

def emptyStore : Store := fun _ => none

theorem c2_witness :
    (initInstalled storeWithInstalled none).fetchAttempted = false ∧
    (∀ k, (initInstalled emptyStore (some "x")).installed k = 0) ∧
    (initInstalled emptyStore (some "x")).csvLoaded = false := by
  refine ⟨((c2_init_priority storeWithInstalled none).1 rfl).1, ?_, ?_⟩
  · exact (((c2_init_priority emptyStore (some "x")).2 rfl).2 (Or.inr ⟨"x", rfl, rfl⟩)).1
  · exact (((c2_init_priority emptyStore (some "x")).2 rfl).2 (Or.inr ⟨"x", rfl, rfl⟩)).2

/-! ## C10 and C5: the historical CSV parser and ingestion failure -/

theorem parseLineAux_quote (rest cur : List Char) (q : Bool)
    (h : ∀ r2, rest = '"' :: r2 → False) :
    parseLineAux ('"' :: rest) cur q = parseLineAux rest cur (!q) := by
  rw [parseLineAux.eq_def]
  split
  · rename_i heq
    exact absurd heq (by simp)
  · rename_i heq
    rw [List.cons.injEq] at heq
    exact (h _ heq.2).elim
  · rename_i heq
    rw [List.cons.injEq] at heq
    rw [heq.2]
  · rename_i heq
    rw [List.cons.injEq] at heq
    exact absurd heq.1 (by decide)
  · rename_i h1 h2 h3 heq
    rw [List.cons.injEq] at heq
    exact (h2 heq.1.symm).elim

theorem parseLineAux_comma_nq (rest cur : List Char) (q : Bool) (hq : ¬ q = true) :
    parseLineAux (',' :: rest) cur q = trimChars cur.reverse :: parseLineAux rest [] q := by
  cases q with
  | false => rfl
  | true => exact absurd rfl hq

theorem parseLineAux_other (c : Char) (rest cur : List Char) (q : Bool)
    (h2 : ¬(c = '"')) (h3 : ¬(c = ',')) :
    parseLineAux (c :: rest) cur q = parseLineAux rest (c :: cur) q := by
  rw [parseLineAux.eq_def]
  split
  · rename_i heq
    exact absurd heq (by simp)
  · rename_i heq
    rw [List.cons.injEq] at heq
    exact absurd heq.1 h2
  · rename_i heq
    rw [List.cons.injEq] at heq
    exact absurd heq.1 h2
  · rename_i heq
    rw [List.cons.injEq] at heq
    exact absurd heq.1 h3
  · rename_i g1 g2 g3 heq
    rw [List.cons.injEq] at heq
    rw [← heq.1, ← heq.2]

theorem parseLineAux_trimmed : ∀ (l cur : List Char) (q : Bool) (f : List Char),
    f ∈ parseLineAux l cur q → trimChars f = f := by
  intro l cur q
  induction l, cur, q using parseLineAux.induct with
  | case1 cur q =>
    intro f hf
    rw [parseLineAux] at hf
    rcases List.mem_singleton.mp hf with rfl
    exact trimChars_idem _
  | case2 rest cur q ih =>
    intro f hf
    exact ih f hf
  | case3 rest cur q h ih =>
    intro f hf
    rw [parseLineAux_quote rest cur q h] at hf
    exact ih f hf
  | case4 rest cur ih =>
    intro f hf
    exact ih f hf
  | case5 rest cur q hq ih =>
    intro f hf
    rw [parseLineAux_comma_nq rest cur q hq] at hf
    rcases List.mem_cons.mp hf with rfl | hf2
    · exact trimChars_idem _
    · exact ih f hf2
  | case6 c rest cur q h1 h2 h3 ih =>
    intro f hf
    rw [parseLineAux_other c rest cur q (fun he => h2 he) (fun he => h3 he)] at hf
    exact ih f hf

theorem parseLine_trimmed (l : List Char) (f : List Char) (hf : f ∈ parseLine l) :
    trimChars f = f :=
  parseLineAux_trimmed l [] false f hf

/-- C10: `parseCSV` returns a header and data rows with every field
trimmed for every input with at least one non-empty line; on an input
whose lines are all empty it reads element 0 of an empty list (the
`none` case of the model, a crash in the source), so totality holds only
under that precondition. -/
theorem c10_parseCSV_total : ∀ txt : String,
    ((∃ l ∈ splitLinesJS txt.data, l ≠ []) →
       ∃ header rows, parseCSV txt = some (header, rows) ∧
         (∀ f ∈ header, trimChars f = f) ∧
         (∀ r ∈ rows, ∀ f ∈ r, trimChars f = f)) ∧
    ((∀ l ∈ splitLinesJS txt.data, l = []) → parseCSV txt = none) := by
  intro txt
  constructor
  · rintro ⟨l, hl, hlne⟩
    have hne : (splitLinesJS txt.data).filter (fun l => !l.isEmpty) ≠ [] := by
      intro hnil
      rw [List.filter_eq_nil_iff] at hnil
      exact hnil l hl (by simp [isEmpty_false_of_ne_nil hlne])
    cases hf : (splitLinesJS txt.data).filter (fun l => !l.isEmpty) with
    | nil => exact absurd hf hne
    | cons l0 rest =>
      refine ⟨parseLine l0, rest.map parseLine, ?_, ?_, ?_⟩
      · unfold parseCSV
        rw [hf]
      · intro f hfm
        exact parseLine_trimmed _ _ hfm
      · intro r hr f hfm
        rw [List.mem_map] at hr
        obtain ⟨l1, _, hpl⟩ := hr
        rw [← hpl] at hfm
        exact parseLine_trimmed _ _ hfm
  · intro hall
    have hnil : (splitLinesJS txt.data).filter (fun l => !l.isEmpty) = [] := by
      rw [List.filter_eq_nil_iff]
      intro a ha
      rw [hall a ha]
      simp
    unfold parseCSV
    rw [hnil]

theorem c10_witness :
    parseCSV "\n\r\n" = none ∧
    (∃ header rows, parseCSV " a ,b\nc" = some (header, rows) ∧
       (∀ f ∈ header, trimChars f = f) ∧
       (∀ r ∈ rows, ∀ f ∈ r, trimChars f = f)) :=
  ⟨(c10_parseCSV_total "\n\r\n").2 (by decide),
   (c10_parseCSV_total " a ,b\nc").1 (by decide)⟩

/-- C5: if the historical CSV's header has no column whose trimmed,
lower-cased name is "month", ingestion ends with an empty ledger and the
non-fatal "not loaded" advisory; no exception escapes (the model's
ingestion function is total and lands in the error case). -/
theorem c5_missing_month_column :
    ∀ (txt : String) (header : List (List Char)) (rows : List (List (List Char))),
    parseCSV txt = some (header, rows) →
    (∀ h ∈ header, (trimChars h).map Char.toLower ≠ "month".data) →
    historicalIngest (some txt) = ([], some errMsgHist) := by
  intro txt header rows hp hno
  have hmc : monthColIdx header = none := by
    rw [monthColIdx, List.findIdx?_eq_none_iff]
    intro h hm
    rw [decide_eq_false_iff_not]
    exact hno h hm
  unfold historicalIngest
  dsimp only
  rw [hp]
  dsimp only
  rw [hmc]

theorem c5_witness : historicalIngest (some "Foo,Bar\n1,2") = ([], some errMsgHist) := by
  refine c5_missing_month_column "Foo,Bar\n1,2" ["Foo".data, "Bar".data]
    [["1".data, "2".data]] ?_ ?_
  · decide
  · decide

/-! ## C4: ledger order and duplicate months -/

/-- C4 as amended: after ingestion the ledger is sorted ascending
(non-strictly) by the (year, month) of the normalized month key; entries
are NOT unique by month — rows normalizing to the same key all survive. -/
theorem c4_ledger_sorted : ∀ f : Option String,
    ((historicalIngest f).1).Pairwise (fun e1 e2 => monthKeyLE e1.month e2.month) := by
  intro f
  cases f with
  | none => simp [historicalIngest]
  | some txt =>
    unfold historicalIngest
    dsimp only
    cases hp : parseCSV txt with
    | none => simp
    | some pr =>
      obtain ⟨header, rows⟩ := pr
      dsimp only
      cases hm : monthColIdx header with
      | none => simp
      | some mIdx =>
        dsimp only
        apply pairwise_insertionSort
        intro e he
        rw [List.mem_filterMap] at he
        obtain ⟨r, hr, hmk⟩ := he
        revert hmk
        cases hn : normalizeMonthChars (r.getD mIdx []) with
        | none => intro hmk; simp at hmk
        | some mk =>
          intro hmk
          simp only [Option.some.injEq] at hmk
          rw [← hmk]
          exact goodKey_of_normalize hn

def dupCSV : String := "Month\n01/2023\n31/1/2023"

/-- C4 counterexample: a CSV whose two rows normalize to the same month
key yields a ledger holding that key twice — entries are not unique by
month, refuting the uniqueness half of the claim. -/
theorem c4_duplicate_month_counterexample :
    ((historicalIngest (some dupCSV)).1.map (fun e => e.month)) = ["01/2023", "01/2023"] ∧
    ¬ ((historicalIngest (some dupCSV)).1.Pairwise (fun e1 e2 => e1.month ≠ e2.month)) := by
  have h1 : (historicalIngest (some dupCSV)).1 =
      List.insertionSort histLE
        [⟨"01/2023", rowValues ["Month".data] ["01/2023".data]⟩,
         ⟨"01/2023", rowValues ["Month".data] ["31/1/2023".data]⟩] := by
    unfold historicalIngest
    dsimp only
    rw [show parseCSV dupCSV = some (["Month".data], [["01/2023".data], ["31/1/2023".data]])
      from by decide]
    dsimp only
    rw [show monthColIdx ["Month".data] = some 0 from by decide]
    dsimp only
    simp only [List.filterMap_cons, List.filterMap_nil]
    rw [show normalizeMonthChars (["01/2023".data].getD 0 []) = some "01/2023".data
        from by decide,
      show normalizeMonthChars (["31/1/2023".data].getD 0 []) = some "01/2023".data
        from by decide]
  have hgood : goodKey ("01/2023" : String) :=
    ⟨1, "2023".data, by omega, by decide, by decide, by decide⟩
  have hle : histLE ⟨"01/2023", rowValues ["Month".data] ["01/2023".data]⟩
      ⟨"01/2023", rowValues ["Month".data] ["31/1/2023".data]⟩ :=
    (histLE_iff hgood hgood).mpr (Or.inr ⟨rfl, le_refl _⟩)
  have h2 : List.insertionSort histLE
      [(⟨"01/2023", rowValues ["Month".data] ["01/2023".data]⟩ : HistEntry),
       ⟨"01/2023", rowValues ["Month".data] ["31/1/2023".data]⟩] =
      [⟨"01/2023", rowValues ["Month".data] ["01/2023".data]⟩,
       ⟨"01/2023", rowValues ["Month".data] ["31/1/2023".data]⟩] := by
    simp only [List.insertionSort, List.orderedInsert]
    rw [if_pos hle]
  have hmap :
      ((historicalIngest (some dupCSV)).1.map (fun e => e.month)) = ["01/2023", "01/2023"] := by
    rw [h1, h2]
    rfl
  refine ⟨hmap, ?_⟩
  intro hp
  have hm : ((historicalIngest (some dupCSV)).1.map (fun e => e.month)).Pairwise
      (fun a b => a ≠ b) :=
    List.Pairwise.map _ (fun a b h => h) hp
  rw [hmap] at hm
  rcases List.pairwise_cons.mp hm with ⟨hne, -⟩
  exact hne "01/2023" (List.mem_singleton.mpr rfl) rfl

/-! ## C7: the five accepted date shapes and idempotence -/

/-- Shape `M/YYYY` or `MM/YYYY`. -/
def shape1 (t : List Char) : Prop :=
  ∃ a b, digits12 a = true ∧ digits4 b = true ∧ t = a ++ '/' :: b

/-- Shape `D/M/YYYY` or `DD/MM/YYYY`. -/
def shape2 (t : List Char) : Prop :=
  ∃ a b c, digits12 a = true ∧ digits12 b = true ∧ digits4 c = true ∧
    t = a ++ '/' :: (b ++ '/' :: c)

/-- Shape `DD-MM-YYYY` (also covering `D-M-YYYY` as the regex does). -/
def shape3 (t : List Char) : Prop :=
  ∃ a b c, digits12 a = true ∧ digits12 b = true ∧ digits4 c = true ∧
    t = a ++ '-' :: (b ++ '-' :: c)

/-- A string matches one of the 5 accepted date shapes: it is non-empty
(the falsy guard) and its trimmed form matches one of the three regexes
(which cover the 5 spec shapes: 1-digit or 2-digit months). -/
def matchesMonthShape (s : String) : Prop :=
  s.data ≠ [] ∧ (shape1 (trimChars s.data) ∨ shape2 (trimChars s.data) ∨ shape3 (trimChars s.data))

theorem tryP1_none_of_one {t u : List Char} (h : splitOnChar '/' t = [u]) : tryP1 t = none := by
  unfold tryP1
  rw [h]

theorem tryP1_none_of_three {t a b c : List Char} (h : splitOnChar '/' t = [a, b, c]) :
    tryP1 t = none := by
  unfold tryP1
  rw [h]

theorem tryP2_none_of_one {t u : List Char} (h : splitOnChar '/' t = [u]) : tryP2 t = none := by
  unfold tryP2
  rw [h]

theorem isEmpty_append_cons (xs : List Char) (c : Char) (ys : List Char) :
    (xs ++ c :: ys).isEmpty = false := by
  cases xs <;> rfl

/-- A canonical key is a fixed point of the normalizer. -/
theorem normalize_canonical_fixed {mm : ℕ} {y : List Char} (hmm : mm ≤ 99)
    (hy : digits4 y = true) :
    normalizeMonthChars (pad2 mm ++ '/' :: y) = some (pad2 mm ++ '/' :: y) := by
  have hpd := pad2_spec mm
  have hlen := pad2_length (show mm < 100 by omega)
  have hyd := digits4_isDigits hy
  have hyne := digits4_ne_nil hy
  have htrim : trimChars (pad2 mm ++ '/' :: y) = pad2 mm ++ '/' :: y := by
    apply trimChars_eq_self
    · intro a l he
      cases hpad : pad2 mm with
      | nil => exact absurd hpad hpd.2.1
      | cons p0 pr =>
        rw [hpad, List.cons_append, List.cons.injEq] at he
        have hp0 : isDigitChar p0 = true := by
          have hd := hpd.1
          rw [hpad, isDigits, List.all_cons, Bool.and_eq_true] at hd
          exact hd.1
        rw [← he.1]
        exact not_isWS_of_isDigitChar hp0
    · intro a hlast
      rw [List.getLast?_append] at hlast
      have hcons : ('/' :: y).getLast? = y.getLast? := by
        cases y with
        | nil => exact absurd rfl hyne
        | cons y0 yr => rw [List.getLast?_cons_cons]
      rw [hcons] at hlast
      obtain ⟨v, hv⟩ := Option.isSome_iff_exists.mp (List.getLast?_isSome.mpr hyne)
      rw [hv] at hlast
      simp only [Option.or] at hlast
      injection hlast with hva
      rw [← hva]
      have hmem : v ∈ y := List.mem_of_getLast?_eq_some hv
      rw [isDigits, List.all_eq_true] at hyd
      exact not_isWS_of_isDigitChar (hyd v hmem)
  unfold normalizeMonthChars
  rw [if_neg (by rw [isEmpty_append_cons]; exact Bool.false_ne_true)]
  rw [htrim]
  have h1 : tryP1 (pad2 mm ++ '/' :: y) = some (pad2 (digitsToNat (pad2 mm)) ++ '/' :: y) := by
    unfold tryP1
    rw [splitOnChar_append (not_mem_of_isDigits hpd.1 (by decide)),
        splitOnChar_of_not_mem (not_mem_of_isDigits hyd (by decide))]
    dsimp only
    have hc : (digits12 (pad2 mm) && digits4 y) = true := by
      rw [Bool.and_eq_true]
      refine ⟨?_, hy⟩
      rw [digits12, Bool.and_eq_true, Bool.and_eq_true]
      exact ⟨⟨hpd.1, by rw [decide_eq_true_eq]; omega⟩, by rw [decide_eq_true_eq]; omega⟩
    rw [if_pos hc]
  rw [h1, hpd.2.2]

theorem normalizeMonthChars_of_shape {s : List Char} (hne : s ≠ [])
    (h : shape1 (trimChars s) ∨ shape2 (trimChars s) ∨ shape3 (trimChars s)) :
    ∃ mk, normalizeMonthChars s = some mk := by
  unfold normalizeMonthChars
  rw [if_neg (by rw [isEmpty_false_of_ne_nil hne]; exact Bool.false_ne_true)]
  rcases h with h1 | h2 | h3
  · obtain ⟨a, b, ha, hb, ht⟩ := h1
    have hsplit : splitOnChar '/' (trimChars s) = [a, b] := by
      rw [ht, splitOnChar_append (not_mem_of_isDigits (digits12_isDigits ha) (by decide)),
          splitOnChar_of_not_mem (not_mem_of_isDigits (digits4_isDigits hb) (by decide))]
    have h1s : tryP1 (trimChars s) = some (pad2 (digitsToNat a) ++ '/' :: b) := by
      unfold tryP1
      rw [hsplit]
      dsimp only
      rw [if_pos (show (digits12 a && digits4 b) = true by rw [Bool.and_eq_true]; exact ⟨ha, hb⟩)]
    rw [h1s]
    exact ⟨_, rfl⟩
  · obtain ⟨a, b, c, ha, hb, hc, ht⟩ := h2
    have hsplit : splitOnChar '/' (trimChars s) = [a, b, c] := by
      rw [ht, splitOnChar_append (not_mem_of_isDigits (digits12_isDigits ha) (by decide)),
          splitOnChar_append (not_mem_of_isDigits (digits12_isDigits hb) (by decide)),
          splitOnChar_of_not_mem (not_mem_of_isDigits (digits4_isDigits hc) (by decide))]
    rw [tryP1_none_of_three hsplit]
    have h2s : tryP2 (trimChars s) = some (pad2 (digitsToNat b) ++ '/' :: c) := by
      unfold tryP2
      rw [hsplit]
      dsimp only
      rw [if_pos (show (digits12 a && digits12 b && digits4 c) = true by
        rw [Bool.and_eq_true, Bool.and_eq_true]; exact ⟨⟨ha, hb⟩, hc⟩)]
    rw [h2s]
    exact ⟨_, rfl⟩
  · obtain ⟨a, b, c, ha, hb, hc, ht⟩ := h3
    have hnos : '/' ∉ trimChars s := by
      rw [ht]
      intro hm
      rcases List.mem_append.mp hm with hma | hmb
      · exact not_mem_of_isDigits (digits12_isDigits ha) (by decide) hma
      rcases List.mem_cons.mp hmb with heq | hmb2
      · exact absurd heq (by decide)
      rcases List.mem_append.mp hmb2 with hmb3 | hmc
      · exact not_mem_of_isDigits (digits12_isDigits hb) (by decide) hmb3
      rcases List.mem_cons.mp hmc with heq | hmc2
      · exact absurd heq (by decide)
      · exact not_mem_of_isDigits (digits4_isDigits hc) (by decide) hmc2
    have hsplit1 : splitOnChar '/' (trimChars s) = [trimChars s] := splitOnChar_of_not_mem hnos
    rw [tryP1_none_of_one hsplit1]
    rw [tryP2_none_of_one hsplit1]
    have h3s : tryP3 (trimChars s) = some (pad2 (digitsToNat b) ++ '/' :: c) := by
      unfold tryP3
      rw [ht, splitOnChar_append (not_mem_of_isDigits (digits12_isDigits ha) (by decide)),
          splitOnChar_append (not_mem_of_isDigits (digits12_isDigits hb) (by decide)),
          splitOnChar_of_not_mem (not_mem_of_isDigits (digits4_isDigits hc) (by decide))]
      dsimp only
      rw [if_pos (show (digits12 a && digits12 b && digits4 c) = true by
        rw [Bool.and_eq_true, Bool.and_eq_true]; exact ⟨⟨ha, hb⟩, hc⟩)]
    rw [h3s]
    exact ⟨_, rfl⟩

theorem normalizeMonthChars_none_of_not_shape {s : List Char}
    (h : ¬(shape1 (trimChars s) ∨ shape2 (trimChars s) ∨ shape3 (trimChars s))) :
    normalizeMonthChars s = none := by
  unfold normalizeMonthChars
  by_cases hnil : s.isEmpty = true
  · rw [if_pos hnil]
  · rw [if_neg hnil]
    cases h1 : tryP1 (trimChars s) with
    | some r =>
      obtain ⟨a, b, ha, hb, ht, -⟩ := tryP1_some h1
      exact absurd (Or.inl ⟨a, b, ha, hb, ht⟩) h
    | none =>
      dsimp only
      cases h2 : tryP2 (trimChars s) with
      | some r =>
        obtain ⟨a, b, c, ha, hb, hc, ht, -⟩ := tryP2_some h2
        exact absurd (Or.inr (Or.inl ⟨a, b, c, ha, hb, hc, ht⟩)) h
      | none =>
        dsimp only
        cases h3 : tryP3 (trimChars s) with
        | some r =>
          obtain ⟨a, b, c, ha, hb, hc, ht, -⟩ := tryP3_some h3
          exact absurd (Or.inr (Or.inr ⟨a, b, c, ha, hb, hc, ht⟩)) h
        | none => rfl

/-- C7: a string matching one of the 5 accepted date shapes normalizes
to a canonical zero-padded `MM/YYYY` key, and normalization is
idempotent on it (`normalizeMonth (normalizeMonth s) = normalizeMonth
s`); a string matching none of the shapes normalizes to the "not a
month" sentinel `none`. -/
theorem c7_normalize_canonical : ∀ s : String,
    (matchesMonthShape s →
       ∃ r : String, normalizeMonth s = some r ∧
         (∃ m y, r.data = m ++ '/' :: y ∧ isDigits m = true ∧ m.length = 2 ∧
            isDigits y = true ∧ y.length = 4) ∧
         normalizeMonth r = some r) ∧
    (¬ matchesMonthShape s → normalizeMonth s = none) := by
  intro s
  constructor
  · rintro ⟨hne, hsh⟩
    obtain ⟨mk, hmk⟩ := normalizeMonthChars_of_shape hne hsh
    obtain ⟨mm, y, hmm, hy, hmkeq⟩ := normalizeMonthChars_shape hmk
    have hy4 : y.length = 4 := by
      have hc := hy
      rw [digits4, Bool.and_eq_true, decide_eq_true_eq] at hc
      exact hc.2
    refine ⟨⟨mk⟩, ?_, ?_, ?_⟩
    · unfold normalizeMonth
      rw [hmk]
      rfl
    · exact ⟨pad2 mm, y, hmkeq, (pad2_spec mm).1, pad2_length (by omega),
        digits4_isDigits hy, hy4⟩
    · unfold normalizeMonth
      show (normalizeMonthChars mk).map (fun cs => (⟨cs⟩ : String)) = some ⟨mk⟩
      rw [hmkeq, normalize_canonical_fixed hmm hy]
      rfl
  · intro hnm
    unfold normalizeMonth
    by_cases hnil : s.data = []
    · rw [show normalizeMonthChars s.data = none from by rw [hnil]; rfl]
      rfl
    · have hsh : ¬(shape1 (trimChars s.data) ∨ shape2 (trimChars s.data) ∨
          shape3 (trimChars s.data)) := fun h => hnm ⟨hnil, h⟩
      rw [normalizeMonthChars_none_of_not_shape hsh]
      rfl

theorem c7_witness :
    (∃ r : String, normalizeMonth "31/12/2022" = some r ∧
       (∃ m y, r.data = m ++ '/' :: y ∧ isDigits m = true ∧ m.length = 2 ∧
          isDigits y = true ∧ y.length = 4) ∧
       normalizeMonth r = some r) ∧
    normalizeMonth "hello" = none := by
  constructor
  · exact (c7_normalize_canonical "31/12/2022").1
      ⟨by decide, Or.inr (Or.inl
        ⟨"31".data, "12".data, "2022".data, by decide, by decide, by decide, by decide⟩)⟩
  · refine (c7_normalize_canonical "hello").2 ?_
    rintro ⟨-, h | h | h⟩
    · obtain ⟨a, b, -, -, ht⟩ := h
      have hmm : '/' ∈ trimChars "hello".data := by
        rw [ht]
        exact List.mem_append_right _ (List.mem_cons_self _ _)
      revert hmm
      decide
    · obtain ⟨a, b, c, -, -, -, ht⟩ := h
      have hmm : '/' ∈ trimChars "hello".data := by
        rw [ht]
        exact List.mem_append_right _ (List.mem_cons_self _ _)
      revert hmm
      decide
    · obtain ⟨a, b, c, -, -, -, ht⟩ := h
      have hmm : '-' ∈ trimChars "hello".data := by
        rw [ht]
        exact List.mem_append_right _ (List.mem_cons_self _ _)
      revert hmm
      decide

/-! ## C8: month subtraction -/

/-- The spec's step: decrement the month once, wrapping to 12 and
borrowing from the year whenever the counter drops below 1. -/
def specMonthStep : ℕ × ℤ → ℕ × ℤ
  | (m, y) => if m = 1 then (12, y - 1) else (m - 1, y)

/-- A canonical month key rendered from its numeric month (01-12) and
year. -/
def renderKey (m : ℕ) (y : ℤ) : String := ⟨pad2 m ++ '/' :: intToChars y⟩

theorem specIter_bounds (n : ℕ) : ∀ (m : ℕ) (y : ℤ), 1 ≤ m → m ≤ 12 →
    1 ≤ (specMonthStep^[n] (m, y)).1 ∧ (specMonthStep^[n] (m, y)).1 ≤ 12 := by
  induction n with
  | zero =>
    intro m y hm1 hm2
    simpa using ⟨hm1, hm2⟩
  | succ k ih =>
    intro m y hm1 hm2
    rw [Function.iterate_succ_apply]
    by_cases hm : m = 1
    · rw [show specMonthStep (m, y) = (12, y - 1) from by simp [specMonthStep, hm]]
      exact ih 12 (y - 1) (by omega) (by omega)
    · rw [show specMonthStep (m, y) = (m - 1, y) from by simp [specMonthStep, hm]]
      exact ih (m - 1) y (by omega) (by omega)

theorem minusMonthsLoop_spec (n : ℕ) : ∀ (m : ℕ) (y : ℤ), 1 ≤ m → m ≤ 12 →
    minusMonthsLoop n (.num (m : ℚ)) (.num (y : ℚ)) =
      (.num (((specMonthStep^[n] (m, y)).1 : ℕ) : ℚ),
       .num (((specMonthStep^[n] (m, y)).2 : ℤ) : ℚ)) := by
  induction n with
  | zero =>
    intro m y hm1 hm2
    simp [minusMonthsLoop]
  | succ k ih =>
    intro m y hm1 hm2
    rw [minusMonthsLoop, Function.iterate_succ_apply]
    by_cases hm : m = 1
    · subst hm
      have hcond : jsStrictEq (jsSub (.num ((1 : ℕ) : ℚ)) (.num 1)) (.num 0) = true := by
        show decide ((((1 : ℕ) : ℚ)) - 1 = 0) = true
        rw [decide_eq_true_eq]
        norm_num
      rw [if_pos hcond]
      have hsub : jsSub (.num ((y : ℤ) : ℚ)) (.num 1) = .num (((y - 1 : ℤ) : ℤ) : ℚ) := by
        show JSNum.num (((y : ℤ) : ℚ) - 1) = _
        norm_num
      rw [hsub]
      have h12 : (JSNum.num (12 : ℚ)) = JSNum.num (((12 : ℕ) : ℕ) : ℚ) := by norm_num
      rw [h12]
      rw [ih 12 (y - 1) (by omega) (by omega)]
      rw [show specMonthStep (1, y) = (12, y - 1) from by simp [specMonthStep]]
    · have hcond : jsStrictEq (jsSub (.num ((m : ℕ) : ℚ)) (.num 1)) (.num 0) = false := by
        show decide (((m : ℕ) : ℚ) - 1 = 0) = false
        rw [decide_eq_false_iff_not]
        intro h0
        have hq : ((m : ℕ) : ℚ) = 1 := by linarith
        have : m = 1 := by exact_mod_cast hq
        exact hm this
      rw [if_neg (by rw [hcond]; exact Bool.false_ne_true)]
      have hsub : jsSub (.num ((m : ℕ) : ℚ)) (.num 1) = .num (((m - 1 : ℕ) : ℕ) : ℚ) := by
        show JSNum.num (((m : ℕ) : ℚ) - 1) = _
        have : (((m - 1 : ℕ) : ℕ) : ℚ) = ((m : ℕ) : ℚ) - 1 := by
          push_cast [Nat.cast_sub (show 1 ≤ m by omega)]
          ring
        rw [this]
      rw [hsub]
      rw [ih (m - 1) y (by omega) (by omega)]
      rw [show specMonthStep (m, y) = (m - 1, y) from by simp [specMonthStep, hm]]

theorem jsNumToChars_natCast (k : ℕ) : jsNumToChars (.num (k : ℚ)) = natToChars k := by
  unfold jsNumToChars
  dsimp only
  rw [if_pos (Rat.den_natCast k), Rat.num_natCast]
  unfold intToChars
  rw [if_neg (by omega)]
  rw [Int.natAbs_ofNat]

theorem jsNumToChars_intCast (z : ℤ) : jsNumToChars (.num (z : ℚ)) = intToChars z := by
  unfold jsNumToChars
  dsimp only
  rw [if_pos (Rat.den_intCast z), Rat.num_intCast]

theorem monthParts_renderKey {m : ℕ} {y : ℤ} (hy : 0 ≤ y) :
    monthParts (renderKey m y) = (.num ((m : ℕ) : ℚ), .num ((y : ℤ) : ℚ)) := by
  have hyc : intToChars y = natToChars y.natAbs := by
    unfold intToChars
    rw [if_neg (by omega)]
  have hnat := natToChars_spec y.natAbs
  have hsplit : splitOnChar '/' (renderKey m y).data = [pad2 m, intToChars y] := by
    show splitOnChar '/' (pad2 m ++ '/' :: intToChars y) = _
    rw [splitOnChar_append (not_mem_of_isDigits (pad2_spec m).1 (by decide))]
    rw [hyc, splitOnChar_of_not_mem (not_mem_of_isDigits hnat.1 (by decide))]
  unfold monthParts
  rw [hsplit]
  dsimp only
  show (jsToNumberChars (String.data ⟨pad2 m⟩), jsToNumberChars (String.data ⟨intToChars y⟩)) = _
  show (jsToNumberChars (pad2 m), jsToNumberChars (intToChars y)) = _
  rw [jsToNumberChars_digits (pad2_spec m).1 (pad2_spec m).2.1, (pad2_spec m).2.2]
  rw [hyc, jsToNumberChars_digits hnat.1 hnat.2.1, hnat.2.2]
  have h1 : (y.natAbs : ℤ) = y := Int.natAbs_of_nonneg hy
  have hcast : ((y.natAbs : ℕ) : ℚ) = ((y : ℤ) : ℚ) := by
    conv_rhs => rw [← h1]
    rw [Int.cast_natCast]
  rw [hcast]

/-- C8: for a canonical month key (month 01-12, four-digit year) and any
non-negative count `n`, `minusMonths` terminates (it is a total
function) and returns the key reached by decrementing the month counter
`n` times with year borrowing exactly as the specification's step
function describes; in particular `minusMonths m 0 = m`. -/
theorem c8_minusMonths : ∀ (m : ℕ) (y : ℤ) (n : ℕ),
    1 ≤ m → m ≤ 12 → 1000 ≤ y → y ≤ 9999 →
    minusMonths (renderKey m y) n =
      renderKey (specMonthStep^[n] (m, y)).1 (specMonthStep^[n] (m, y)).2 ∧
    minusMonths (renderKey m y) 0 = renderKey m y := by
  intro m y n hm1 hm2 hy1 hy2
  have main : ∀ n2 : ℕ, minusMonths (renderKey m y) n2 =
      renderKey (specMonthStep^[n2] (m, y)).1 (specMonthStep^[n2] (m, y)).2 := by
    intro n2
    unfold minusMonths
    rw [monthParts_renderKey (by omega)]
    dsimp only
    rw [minusMonthsLoop_spec n2 m y hm1 hm2]
    dsimp only
    rw [jsNumToChars_natCast, jsNumToChars_intCast]
    rfl
  refine ⟨main n, ?_⟩
  rw [main 0]
  simp

theorem c8_witness :
    ((1 : ℕ) ≤ 1 ∧ (1 : ℕ) ≤ 12 ∧ (1000 : ℤ) ≤ 2023 ∧ (2023 : ℤ) ≤ 9999) ∧
    minusMonths (renderKey 1 2023) 13 =
      renderKey (specMonthStep^[13] (1, 2023)).1 (specMonthStep^[13] (1, 2023)).2 ∧
    minusMonths (renderKey 1 2023) 0 = renderKey 1 2023 :=
  ⟨⟨by decide, by decide, by decide, by decide⟩,
   c8_minusMonths 1 2023 13 (by decide) (by decide) (by decide) (by decide)⟩

end Dashboard
